import Mathlib

/-!
Verification of the unquoted-attribute HTML escaper
(`src/encode/unquoted_attribute.rs`), shallowly embedded over lists of
bytes (`List Nat`, each element `< 256`).

The crate-internal helpers `is_alphanumeric`, `write_html_entity_to_vec`,
`write_html_entity_to_writer` (in `crate::functions`) and the dependency
`utf8_width::get_width_assume_valid` are not part of the single source
file; they are modelled from the specification (§4.1–§4.3).
-/

set_option linter.unnecessarySeqFocus false
set_option linter.unusedVariables false

namespace HtmlEscape

/-- Modelled from the spec: §4.1 Width Classifier
(`utf8_width::get_width_assume_valid`, not under `src/`): total byte width
of the character starting at the given leading byte, determined purely
from the leading byte's bit pattern (ASCII bytes → 1; standard multi-byte
leading-byte ranges → 2, 3 or 4). -/
def get_width_assume_valid (b : Nat) : Nat :=
  if 0xF0 ≤ b then 4
  else if 0xE0 ≤ b then 3
  else if 0xC0 ≤ b then 2
  else 1

/-- Modelled from the spec: §4.2 Alphanumeric Test (`crate::functions`,
not under `src/`): whether a single byte is an ASCII letter
(`A`–`Z`, `a`–`z`) or digit (`0`–`9`). -/
def is_alphanumeric (b : Nat) : Bool :=
  (0x30 ≤ b && b ≤ 0x39) || (0x41 ≤ b && b ≤ 0x5A) || (0x61 ≤ b && b ≤ 0x7A)

/-- Uppercase hexadecimal digit (as an ASCII byte) of a value `< 16`. -/
def hexDigitUpper (n : Nat) : Nat :=
  if n < 10 then 0x30 + n else 0x37 + n

/-- Modelled from the spec: §4.3 Entity Writer (`write_html_entity_to_vec`
/ `write_html_entity_to_writer` in `crate::functions`, not under `src/`):
the byte sequence appended for one byte that requires escaping. `&`, `<`,
`>`, `"` become the named references `&amp;`, `&lt;`, `&gt;`, `&quot;`;
every other byte value (always `< 256` at call sites) becomes `&#x`
followed by its two uppercase hex digits and `;`. -/
def write_html_entity (e : Nat) : List Nat :=
  if e = 0x26 then [0x26, 0x61, 0x6D, 0x70, 0x3B]
  else if e = 0x3C then [0x26, 0x6C, 0x74, 0x3B]
  else if e = 0x3E then [0x26, 0x67, 0x74, 0x3B]
  else if e = 0x22 then [0x26, 0x71, 0x75, 0x6F, 0x74, 0x3B]
  else [0x26, 0x23, 0x78, hexDigitUpper (e / 16), hexDigitUpper (e % 16), 0x3B]

/-- Rust slice `&tb[s..e]`. -/
def sliceBytes (tb : List Nat) (s e : Nat) : List Nat :=
  (tb.drop s).take (e - s)

/-- The scan loop of `encode_unquoted_attribute_to_vec`, at cursor `p`,
copy-run start `start`, with `out` the bytes accumulated in the output
vector so far.  `none` models the out-of-bounds panic `text_bytes[p]`
that can occur when `p` oversteps the length (possible only on malformed
input). -/
def encodeVecLoop (tb : List Nat) (p start : Nat) (out : List Nat) :
    Option (List Nat) :=
  if p = tb.length then
    some (out ++ sliceBytes tb start p)
  else if h : p < tb.length then
    let e := tb[p]
    let width := get_width_assume_valid e
    if width = 1 ∧ is_alphanumeric e = false then
      encodeVecLoop tb (p + width) (p + 1)
        (out ++ sliceBytes tb start p ++ write_html_entity e)
    else
      encodeVecLoop tb (p + width) start out
  else
    none
termination_by tb.length - p
decreasing_by
  all_goals
    simp only [get_width_assume_valid] at *
    split_ifs at * <;> omega

/-- `encode_unquoted_attribute_to_vec text output`: the final buffer
contents together with the returned slice `&output[current_length..]`. -/
def encode_unquoted_attribute_to_vec (text output : List Nat) :
    Option (List Nat × List Nat) :=
  match encodeVecLoop text 0 0 output with
  | none => none
  | some buf => some (buf, buf.drop output.length)

/-- `encode_unquoted_attribute_to_string`: delegates to
`encode_unquoted_attribute_to_vec` on the string's underlying byte
vector. -/
def encode_unquoted_attribute_to_string (text output : List Nat) :
    Option (List Nat × List Nat) :=
  encode_unquoted_attribute_to_vec text output

/-- The initial dry-scan loop of `encode_unquoted_attribute`: returns
`some none` if the end is reached without finding a byte to escape
(the borrowed fast path), `some (some (p, e))` if the loop breaks at
position `p` on byte `e`, and `none` for the out-of-bounds panic. -/
def encodeDryLoop (tb : List Nat) (p : Nat) : Option (Option (Nat × Nat)) :=
  if p = tb.length then
    some none
  else if h : p < tb.length then
    let e := tb[p]
    let width := get_width_assume_valid e
    if width = 1 ∧ is_alphanumeric e = false then
      some (some (p, e))
    else
      encodeDryLoop tb (p + width)
  else
    none
termination_by tb.length - p
decreasing_by
  simp only [get_width_assume_valid] at *
  split_ifs at * <;> omega

/-- The result of `encode_unquoted_attribute`: Rust's `Cow<str>`. -/
inductive CowBytes where
  | borrowed (data : List Nat)
  | owned (data : List Nat)
deriving DecidableEq

/-- The byte contents of a `Cow`. -/
def CowBytes.data : CowBytes → List Nat
  | .borrowed d => d
  | .owned d => d

/-- `encode_unquoted_attribute`: dry-scan for the first byte requiring
escaping; if none, return the input borrowed; otherwise build a fresh
vector from the clean prefix, the first entity, and the `to_vec` run over
the remainder. -/
def encode_unquoted_attribute (tb : List Nat) : Option CowBytes :=
  match encodeDryLoop tb 0 with
  | none => none
  | some none => some (.borrowed tb)
  | some (some (p, e)) =>
      (encodeVecLoop (tb.drop (p + 1)) 0 0
        (tb.take p ++ write_html_entity e)).map .owned

/-- The scan loop of `encode_unquoted_attribute_to_writer`.  The sink is
modelled by a failure oracle `err`: call number `n` fails with error
`err n` when that is `some`.  `tr` is the trace of successfully written
byte slices.  Each `write_all` of a clean run and (modelled from the
spec, §4.4: "each flush/entity-write is an I/O write call") each
`write_html_entity_to_writer` is one sink call.  The `?` operator returns
the sink's error unchanged, performing no further writes. -/
def encodeWriterLoop (err : Nat → Option Nat) (tb : List Nat)
    (p start n : Nat) (tr : List (List Nat)) :
    Option (Except Nat Unit × List (List Nat)) :=
  if p = tb.length then
    match err n with
    | some er => some (.error er, tr)
    | none => some (.ok (), tr ++ [sliceBytes tb start p])
  else if h : p < tb.length then
    let e := tb[p]
    let width := get_width_assume_valid e
    if width = 1 ∧ is_alphanumeric e = false then
      match err n with
      | some er => some (.error er, tr)
      | none =>
        match err (n + 1) with
        | some er => some (.error er, tr ++ [sliceBytes tb start p])
        | none =>
            encodeWriterLoop err tb (p + width) (p + 1) (n + 2)
              (tr ++ [sliceBytes tb start p, write_html_entity e])
    else
      encodeWriterLoop err tb (p + width) start n tr
  else
    none
termination_by tb.length - p
decreasing_by
  all_goals
    simp only [get_width_assume_valid] at *
    split_ifs at * <;> omega

/-- `encode_unquoted_attribute_to_writer` against a sink with failure
oracle `err`: the returned `Result` and the trace of successful writes. -/
def encode_unquoted_attribute_to_writer (err : Nat → Option Nat)
    (text : List Nat) : Option (Except Nat Unit × List (List Nat)) :=
  encodeWriterLoop err text 0 0 0 []

/-- UTF-8 continuation byte. -/
def isCont (b : Nat) : Bool := 0x80 ≤ b && b ≤ 0xBF

/-- A well-formed encoding of one character (a conservative superset of
UTF-8: overlong/surrogate restrictions on continuation bytes are not
imposed, so every valid UTF-8 character encoding satisfies it). -/
inductive ValidChar : List Nat → Prop where
  | ascii (b : Nat) : b < 0x80 → ValidChar [b]
  | two (b1 b2 : Nat) : 0xC2 ≤ b1 → b1 ≤ 0xDF → isCont b2 = true →
      ValidChar [b1, b2]
  | three (b1 b2 b3 : Nat) : 0xE0 ≤ b1 → b1 ≤ 0xEF → isCont b2 = true →
      isCont b3 = true → ValidChar [b1, b2, b3]
  | four (b1 b2 b3 b4 : Nat) : 0xF0 ≤ b1 → b1 ≤ 0xF4 → isCont b2 = true →
      isCont b3 = true → isCont b4 = true → ValidChar [b1, b2, b3, b4]

/-- A well-formed encoded byte sequence: a concatenation of well-formed
character encodings.  Every valid UTF-8 string's bytes satisfy this. -/
inductive ValidUtf8 : List Nat → Prop where
  | nil : ValidUtf8 []
  | cons (c rest : List Nat) : ValidChar c → ValidUtf8 rest →
      ValidUtf8 (c ++ rest)

/-- Reference transformation: the escaped output, one character at a
time, as dictated by the source's per-character decision (width-1
non-alphanumeric bytes become entities, everything else is copied). -/
def escapeList (l : List Nat) : List Nat :=
  match l with
  | [] => []
  | b :: rest =>
    if get_width_assume_valid b = 1 ∧ is_alphanumeric b = false then
      write_html_entity b ++ escapeList rest
    else
      (b :: rest).take (get_width_assume_valid b) ++
        escapeList ((b :: rest).drop (get_width_assume_valid b))
termination_by l.length
decreasing_by
  · simp
  · simp only [get_width_assume_valid, List.length_drop]
    split_ifs <;> simp <;> omega

/-- The escaped form of a single well-formed character encoding. -/
def escapeChar (c : List Nat) : List Nat :=
  match c with
  | [b] => if is_alphanumeric b then [b] else write_html_entity b
  | c => c

/-- Numeric value of an ASCII hexadecimal digit byte. -/
def hexVal (d : Nat) : Nat :=
  if 0x30 ≤ d ∧ d ≤ 0x39 then d - 0x30
  else if 0x41 ≤ d ∧ d ≤ 0x46 then d - 0x37
  else if 0x61 ≤ d ∧ d ≤ 0x66 then d - 0x57
  else 0

/-- Entity parse step of the reference decoder: given the bytes after a
`&`, recognise `amp;`, `lt;`, `gt;`, `quot;` or `#xHH;` and return the
decoded byte with the remaining input. -/
def parseEntityTail : List Nat → Option (Nat × List Nat)
  | 0x61 :: 0x6D :: 0x70 :: 0x3B :: r => some (0x26, r)
  | 0x6C :: 0x74 :: 0x3B :: r => some (0x3C, r)
  | 0x67 :: 0x74 :: 0x3B :: r => some (0x3E, r)
  | 0x71 :: 0x75 :: 0x6F :: 0x74 :: 0x3B :: r => some (0x22, r)
  | 0x23 :: 0x78 :: d1 :: d2 :: 0x3B :: r => some (hexVal d1 * 16 + hexVal d2, r)
  | _ => none

/-- Modelled from the spec: the external collaborator's reference decoder
(§8 round trip): maps `&amp;`→`&`, `&lt;`→`<`, `&gt;`→`>`, `&quot;`→`"`,
and `&#xHH;`→the byte with hex value `HH`; every other byte is copied
through unchanged. -/
def unescape (l : List Nat) : List Nat :=
  match l with
  | [] => []
  | b :: rest =>
    if b = 0x26 then
      match hpe : parseEntityTail rest with
      | some (c, r) => c :: unescape r
      | none => 0x26 :: unescape rest
    else b :: unescape rest
termination_by l.length
decreasing_by
  · simp only [parseEntityTail] at hpe
    split at hpe <;> simp_all <;> omega
  · simp
  · simp

/-- The claim's wording of a hex digit: `0`–`9` then uppercase `A`–`F`. -/
def specHexDigit (d : Nat) : Nat :=
  if d < 10 then Char.toNat (Char.ofNat 48) + d
  else Char.toNat (Char.ofNat 65) + (d - 10)

/-- The claim's wording of "the uppercase hexadecimal representation of
b's numeric value (minimum two hex digits)": a byte value is below 256,
so this is exactly its two hex digits. -/
def specUpperHex (n : Nat) : List Nat :=
  [specHexDigit (n / 16), specHexDigit (n % 16)]

/-- The Entity Writer's output as the claim states it: the named
references `&amp;`, `&lt;`, `&gt;`, `&quot;` for the bytes `&`, `<`, `>`,
`"` respectively, and otherwise `&#x` followed by the uppercase
hexadecimal representation of the byte's numeric value (minimum two hex
digits) followed by `;`. -/
def entitySpec (b : Nat) : List Nat :=
  if b = Char.toNat (Char.ofNat 38) then ((String.toList "&amp;").map Char.toNat)
  else if b = Char.toNat (Char.ofNat 60) then ((String.toList "&lt;").map Char.toNat)
  else if b = Char.toNat (Char.ofNat 62) then ((String.toList "&gt;").map Char.toNat)
  else if b = Char.toNat (Char.ofNat 34) then ((String.toList "&quot;").map Char.toNat)
  else ((String.toList "&#x").map Char.toNat) ++ specUpperHex b ++
    ((String.toList ";").map Char.toNat)

/-! ### Basic facts about the classifiers -/

theorem one_le_width (b : Nat) : 1 ≤ get_width_assume_valid b := by
  unfold get_width_assume_valid
  split_ifs <;> omega

theorem width_of_ascii {b : Nat} (h : b < 0xC0) :
    get_width_assume_valid b = 1 := by
  unfold get_width_assume_valid
  split_ifs <;> omega

/-- Every well-formed character encoding starts with a byte whose width
classification equals the encoding's length; a one-byte encoding is an
ASCII byte. -/
theorem ValidChar.shape {c : List Nat} (h : ValidChar c) :
    ∃ b cs, c = b :: cs ∧ get_width_assume_valid b = (b :: cs).length ∧
      ((b :: cs).length = 1 → b < 0x80) := by
  cases h with
  | ascii b hb =>
      refine ⟨b, [], rfl, ?_, fun _ => hb⟩
      show get_width_assume_valid b = 1
      unfold get_width_assume_valid; split_ifs <;> omega
  | two b1 b2 h1 h2 hc =>
      refine ⟨b1, [b2], rfl, ?_, by simp⟩
      show get_width_assume_valid b1 = 2
      unfold get_width_assume_valid; split_ifs <;> omega
  | three b1 b2 b3 h1 h2 hc1 hc2 =>
      refine ⟨b1, [b2, b3], rfl, ?_, by simp⟩
      show get_width_assume_valid b1 = 3
      unfold get_width_assume_valid; split_ifs <;> omega
  | four b1 b2 b3 b4 h1 h2 hc1 hc2 hc3 =>
      refine ⟨b1, [b2, b3, b4], rfl, ?_, by simp⟩
      show get_width_assume_valid b1 = 4
      unfold get_width_assume_valid
      split_ifs <;> omega

/-- A well-formed character encoding is nonempty and at most 4 bytes. -/
theorem ValidChar.length_pos {c : List Nat} (h : ValidChar c) : 0 < c.length := by
  cases h <;> simp

/-- In a multi-byte well-formed character encoding every byte is `≥ 0x80`. -/
theorem ValidChar.multibyte_high {c : List Nat} (h : ValidChar c)
    (h2 : 2 ≤ c.length) : ∀ x ∈ c, 0x80 ≤ x := by
  cases h with
  | ascii b hb => simp at h2
  | two b1 b2 h1 hh hc =>
      simp only [isCont, Bool.and_eq_true, decide_eq_true_eq] at hc
      intro x hx
      simp only [List.mem_cons, List.not_mem_nil, or_false] at hx
      rcases hx with rfl | rfl <;> omega
  | three b1 b2 b3 h1 hh hc1 hc2 =>
      simp only [isCont, Bool.and_eq_true, decide_eq_true_eq] at hc1 hc2
      intro x hx
      simp only [List.mem_cons, List.not_mem_nil, or_false] at hx
      rcases hx with rfl | rfl | rfl <;> omega
  | four b1 b2 b3 b4 h1 hh hc1 hc2 hc3 =>
      simp only [isCont, Bool.and_eq_true, decide_eq_true_eq] at hc1 hc2 hc3
      intro x hx
      simp only [List.mem_cons, List.not_mem_nil, or_false] at hx
      rcases hx with rfl | rfl | rfl | rfl <;> omega

/-! ### Slice arithmetic -/

theorem sliceBytes_self (tb : List Nat) (p : Nat) : sliceBytes tb p p = [] := by
  simp [sliceBytes]

theorem sliceBytes_zero (tb : List Nat) (q : Nat) :
    sliceBytes tb 0 q = tb.take q := by
  simp [sliceBytes]

theorem sliceBytes_chunk (tb : List Nat) (st p w : Nat) (h : st ≤ p) :
    sliceBytes tb st (p + w) = sliceBytes tb st p ++ (tb.drop p).take w := by
  unfold sliceBytes
  rw [show p + w - st = (p - st) + w by omega, List.take_add, List.drop_drop,
    show st + (p - st) = p by omega]

/-! ### The reference transformation, chunk by chunk -/

theorem escapeList_nil : escapeList [] = [] := by
  simp [escapeList]

theorem escapeChar_of_length_ne_one {c : List Nat} (h : c.length ≠ 1) :
    escapeChar c = c := by
  match c with
  | [] => rfl
  | [b] => simp at h
  | a :: b :: t => rfl

/-- Escaping a well-formed byte sequence processes it one character at a
time. -/
theorem escapeList_chunk {c : List Nat} (hc : ValidChar c) (rest : List Nat) :
    escapeList (c ++ rest) = escapeChar c ++ escapeList rest := by
  obtain ⟨b, cs, rfl, hw, hascii⟩ := hc.shape
  cases cs with
  | nil =>
      have hw1 : get_width_assume_valid b = 1 := by simpa using hw
      rw [List.cons_append, List.nil_append, escapeList]
      simp only [hw1, true_and]
      by_cases ha : is_alphanumeric b
      · simp [ha, escapeChar]
      · simp [ha, escapeChar]
  | cons c2 ct =>
      have hne : ¬(get_width_assume_valid b = 1 ∧ is_alphanumeric b = false) := by
        rintro ⟨h1, h2⟩
        rw [h1] at hw
        simp [List.length_cons] at hw
      rw [List.cons_append, escapeList, if_neg hne,
        escapeChar_of_length_ne_one (by simp)]
      have htake : ((b :: c2 :: ct) ++ rest).take (b :: c2 :: ct).length =
          b :: c2 :: ct := List.take_left _ _
      have hdrop : ((b :: c2 :: ct) ++ rest).drop (b :: c2 :: ct).length =
          rest := List.drop_left _ _
      rw [hw]
      simp only [List.cons_append] at htake hdrop ⊢
      rw [htake, hdrop]
      simp

end HtmlEscape

namespace HtmlEscape

/-! ### The scan loops compute the reference transformation -/

/-- Inversion for `ValidUtf8`. -/
theorem ValidUtf8.destruct {l : List Nat} (h : ValidUtf8 l) :
    l = [] ∨ ∃ c rest, ValidChar c ∧ ValidUtf8 rest ∧ l = c ++ rest := by
  cases h with
  | nil => exact Or.inl rfl
  | cons c rest hc hrest => exact Or.inr ⟨c, rest, hc, hrest, rfl⟩

/-- Main loop invariant of `encode_unquoted_attribute_to_vec`: on a
well-formed suffix, the loop terminates without out-of-bounds access and
appends the pending clean run followed by the escaped suffix. -/
theorem encodeVecLoop_valid (tb : List Nat) (p st : Nat) (out : List Nat)
    (hst : st ≤ p) (hp : p ≤ tb.length) (hv : ValidUtf8 (tb.drop p)) :
    encodeVecLoop tb p st out =
      some (out ++ sliceBytes tb st p ++ escapeList (tb.drop p)) := by
  rcases hv.destruct with hnil | ⟨c, rest, hc, hrest, hd0⟩
  · have hlen : p = tb.length := by
      have := congrArg List.length hnil
      simp [List.length_drop] at this
      omega
    rw [encodeVecLoop, if_pos hlen, hnil, escapeList_nil, List.append_nil]
  · obtain ⟨b, cs, rfl, hw, hascii⟩ := hc.shape
    have hd2 : tb.drop p = (b :: cs) ++ rest := hd0
    have hplt : p < tb.length := by
      have := congrArg List.length hd2
      simp [List.length_drop] at this
      omega
    have hgetp : tb[p] = b := by
      have h3 : tb[p]? = some b := by
        have h4 := List.getElem?_drop tb p 0
        rw [Nat.add_zero] at h4
        rw [← h4, hd2]
        simp
      rw [List.getElem?_eq_getElem hplt] at h3
      exact Option.some.inj h3
    have hdropw : tb.drop (p + (b :: cs).length) = rest := by
      rw [← List.drop_drop, hd2, List.drop_left]
    have htakew : (tb.drop p).take (b :: cs).length = b :: cs := by
      rw [hd2, List.take_left]
    cases cs with
    | nil =>
      have hw1 : get_width_assume_valid b = 1 := by simpa using hw
      have hb : b < 0x80 := hascii (by simp)
      rw [encodeVecLoop, if_neg (by omega), dif_pos hplt]
      simp only [hgetp, hw1]
      simp only [List.length_cons, List.length_nil] at hdropw
      by_cases ha : is_alphanumeric b
      · rw [if_neg (by simp [ha])]
        rw [encodeVecLoop_valid tb (p + 1) st out (by omega) (by omega)
          (by rw [hdropw]; exact hrest)]
        rw [hdropw, hd2, escapeList_chunk hc]
        have : sliceBytes tb st (p + 1) = sliceBytes tb st p ++ [b] := by
          rw [sliceBytes_chunk tb st p 1 hst]
          rw [show (tb.drop p).take 1 = [b] by rw [hd2]; simp]
        rw [this]
        simp [escapeChar, ha, List.append_assoc]
      · rw [if_pos (by simp [ha])]
        rw [encodeVecLoop_valid tb (p + 1) (p + 1)
          (out ++ sliceBytes tb st p ++ write_html_entity b)
          (by omega) (by omega) (by rw [hdropw]; exact hrest)]
        rw [hdropw, hd2, escapeList_chunk hc, sliceBytes_self]
        simp [escapeChar, ha, List.append_assoc]
    | cons c2 ct =>
      have hw2 : get_width_assume_valid b = (b :: c2 :: ct).length := hw
      have hlen2 : 2 ≤ (b :: c2 :: ct).length := by simp
      have hple : p + (b :: c2 :: ct).length ≤ tb.length := by
        have h5 := congrArg List.length hd2
        simp [List.length_drop] at h5
        simp only [List.length_cons]
        omega
      rw [encodeVecLoop, if_neg (by omega), dif_pos hplt]
      simp only [hgetp, hw2]
      rw [if_neg (by simp)]
      rw [encodeVecLoop_valid tb (p + (b :: c2 :: ct).length) st out
        (by omega) hple (by rw [hdropw]; exact hrest)]
      rw [hdropw, hd2, escapeList_chunk hc,
        escapeChar_of_length_ne_one (by simp),
        sliceBytes_chunk tb st p _ hst, htakew]
      simp [List.append_assoc]
termination_by tb.length - p
decreasing_by
  · omega
  · omega
  · simp only [List.length_cons]
    omega

theorem sliceBytes_split (tb : List Nat) (p q w : Nat) (h : p + w ≤ q) :
    sliceBytes tb p q = (tb.drop p).take w ++ sliceBytes tb (p + w) q := by
  unfold sliceBytes
  rw [show q - p = w + (q - (p + w)) by omega, List.take_add, List.drop_drop]

/-- Dry-scan invariant of `encode_unquoted_attribute`: on a well-formed
suffix the dry loop either reaches the end (and then nothing in the
suffix needs escaping) or breaks at the first byte requiring escaping,
which is an ASCII byte sitting on a character boundary. -/
theorem encodeDryLoop_valid (tb : List Nat) (p : Nat)
    (hp : p ≤ tb.length) (hv : ValidUtf8 (tb.drop p)) :
    (encodeDryLoop tb p = some none ∧ escapeList (tb.drop p) = tb.drop p) ∨
    (∃ q e, encodeDryLoop tb p = some (some (q, e)) ∧ p ≤ q ∧ q < tb.length ∧
      tb[q]? = some e ∧ e < 0x80 ∧ is_alphanumeric e = false ∧
      ValidUtf8 (tb.drop (q + 1)) ∧
      escapeList (tb.drop p) =
        sliceBytes tb p q ++ write_html_entity e ++ escapeList (tb.drop (q + 1))) := by
  rcases hv.destruct with hnil | ⟨c, rest, hc, hrest, hd0⟩
  · left
    have hlen : p = tb.length := by
      have := congrArg List.length hnil
      simp [List.length_drop] at this
      omega
    rw [encodeDryLoop, if_pos hlen, hnil, escapeList_nil]
    exact ⟨rfl, rfl⟩
  · obtain ⟨b, cs, rfl, hw, hascii⟩ := hc.shape
    have hd2 : tb.drop p = (b :: cs) ++ rest := hd0
    have hplt : p < tb.length := by
      have := congrArg List.length hd2
      simp [List.length_drop] at this
      omega
    have hgetp : tb[p] = b := by
      have h3 : tb[p]? = some b := by
        have h4 := List.getElem?_drop tb p 0
        rw [Nat.add_zero] at h4
        rw [← h4, hd2]
        simp
      rw [List.getElem?_eq_getElem hplt] at h3
      exact Option.some.inj h3
    have hdropw : tb.drop (p + (b :: cs).length) = rest := by
      rw [← List.drop_drop, hd2, List.drop_left]
    have htakew : (tb.drop p).take (b :: cs).length = b :: cs := by
      rw [hd2, List.take_left]
    cases cs with
    | nil =>
      have hw1 : get_width_assume_valid b = 1 := by simpa using hw
      have hb : b < 0x80 := hascii (by simp)
      simp only [List.length_cons, List.length_nil] at hdropw
      rw [encodeDryLoop, if_neg (by omega), dif_pos hplt]
      simp only [hgetp, hw1]
      by_cases ha : is_alphanumeric b
      · rw [if_neg (by simp [ha])]
        have hrec := encodeDryLoop_valid tb (p + 1) (by omega)
          (by rw [hdropw]; exact hrest)
        have hesc : escapeList (tb.drop p) = b :: escapeList (tb.drop (p + 1)) := by
          rw [hd2, escapeList_chunk hc, hdropw]
          simp [escapeChar, ha]
        rcases hrec with ⟨hdry, heq⟩ | ⟨q, e, hdry, hpq, hql, hqe, he, hena, hval, heq⟩
        · left
          refine ⟨hdry, ?_⟩
          rw [hesc, heq, hdropw, hd2]
          simp
        · right
          refine ⟨q, e, hdry, by omega, hql, hqe, he, hena, hval, ?_⟩
          rw [hesc, heq, sliceBytes_split tb p q 1 (by omega)]
          rw [show (tb.drop p).take 1 = [b] by rw [hd2]; simp]
          simp
      · rw [if_pos (by simp [ha])]
        right
        refine ⟨p, b, rfl, le_refl p, hplt, by rw [List.getElem?_eq_getElem hplt, hgetp],
          hb, by simpa using ha, by rw [hdropw]; exact hrest, ?_⟩
        rw [hd2, escapeList_chunk hc, hdropw, sliceBytes_self]
        simp [escapeChar, ha]
    | cons c2 ct =>
      have hw2 : get_width_assume_valid b = (b :: c2 :: ct).length := hw
      have hple : p + (b :: c2 :: ct).length ≤ tb.length := by
        have h5 := congrArg List.length hd2
        simp [List.length_drop] at h5
        simp only [List.length_cons]
        omega
      rw [encodeDryLoop, if_neg (by omega), dif_pos hplt]
      simp only [hgetp, hw2]
      rw [if_neg (by simp)]
      have hrec := encodeDryLoop_valid tb (p + (b :: c2 :: ct).length) hple
        (by rw [hdropw]; exact hrest)
      have hesc : escapeList (tb.drop p) =
          (b :: c2 :: ct) ++ escapeList (tb.drop (p + (b :: c2 :: ct).length)) := by
        rw [hd2, escapeList_chunk hc, hdropw,
          escapeChar_of_length_ne_one (by simp)]
      rcases hrec with ⟨hdry, heq⟩ | ⟨q, e, hdry, hpq, hql, hqe, he, hena, hval, heq⟩
      · left
        refine ⟨hdry, ?_⟩
        rw [hesc, heq, hdropw, hd2]
      · right
        refine ⟨q, e, hdry, by simp only [List.length_cons] at hpq ⊢; omega, hql,
          hqe, he, hena, hval, ?_⟩
        rw [hesc, heq, sliceBytes_split tb p q (b :: c2 :: ct).length hpq, htakew]
        simp [List.append_assoc]
termination_by tb.length - p
decreasing_by
  · omega
  · simp only [List.length_cons]
    omega

/-- On well-formed input, the allocate-and-return variant succeeds and
its byte contents are the reference transformation. -/
theorem encode_unquoted_attribute_data (tb : List Nat) (hv : ValidUtf8 tb) :
    ∃ c, encode_unquoted_attribute tb = some c ∧ c.data = escapeList tb := by
  have hv0 : ValidUtf8 (tb.drop 0) := by rw [List.drop_zero]; exact hv
  rcases encodeDryLoop_valid tb 0 (Nat.zero_le _) hv0 with
    ⟨hdry, heq⟩ | ⟨q, e, hdry, _, hql, hqe, he, hena, hval, heq⟩
  · refine ⟨.borrowed tb, ?_, ?_⟩
    · rw [encode_unquoted_attribute, hdry]
    · rw [List.drop_zero] at heq
      simp [CowBytes.data, heq]
  · have hloop := encodeVecLoop_valid (tb.drop (q + 1)) 0 0
      (tb.take q ++ write_html_entity e) (le_refl 0) (Nat.zero_le _)
      (by rw [List.drop_zero]; exact hval)
    refine ⟨.owned (tb.take q ++ write_html_entity e ++ escapeList (tb.drop (q + 1))),
      ?_, ?_⟩
    · rw [encode_unquoted_attribute, hdry]
      simp only [hloop, sliceBytes_self, List.append_nil, Option.map_some]
      simp [List.append_assoc]
    · rw [List.drop_zero] at heq
      simp [CowBytes.data, heq, sliceBytes_zero]

/-- Frame property of the `to_vec` loop: the output vector is only ever
appended to — the result is the initial contents followed by bytes that
do not depend on those contents.  Holds for arbitrary (also malformed)
input. -/
theorem encodeVecLoop_frame (tb : List Nat) (p st : Nat) (out : List Nat) :
    encodeVecLoop tb p st out =
      (encodeVecLoop tb p st []).map (fun l => out ++ l) := by
  by_cases h1 : p = tb.length
  · rw [encodeVecLoop, encodeVecLoop]
    simp [h1]
  · by_cases h2 : p < tb.length
    · rw [encodeVecLoop, encodeVecLoop]
      simp only [if_neg h1, dif_pos h2]
      split_ifs with h3
      · rw [encodeVecLoop_frame tb (p + get_width_assume_valid tb[p]) (p + 1)
            (out ++ sliceBytes tb st p ++ write_html_entity tb[p]),
          encodeVecLoop_frame tb (p + get_width_assume_valid tb[p]) (p + 1)
            ([] ++ sliceBytes tb st p ++ write_html_entity tb[p])]
        cases encodeVecLoop tb (p + get_width_assume_valid tb[p]) (p + 1) [] with
        | none => simp
        | some v => simp [List.append_assoc]
      · rw [encodeVecLoop_frame tb (p + get_width_assume_valid tb[p]) st out,
          encodeVecLoop_frame tb (p + get_width_assume_valid tb[p]) st []]
    · rw [encodeVecLoop, encodeVecLoop]
      simp [h1, h2]
termination_by tb.length - p
decreasing_by
  all_goals
    have := one_le_width (tb[p])
    omega

/-- Main invariant of the streaming loop on a well-formed suffix: the
loop terminates and returns; every write it performed succeeded; if it
returns an error, that error is exactly the sink error of the first
failing call (the call right after the performed writes) and no further
write was performed; if it returns success, the performed writes complete
the escaped output. -/
theorem encodeWriterLoop_valid (err : Nat → Option Nat) (tb : List Nat)
    (p st n : Nat) (tr : List (List Nat))
    (hst : st ≤ p) (hp : p ≤ tb.length) (hv : ValidUtf8 (tb.drop p)) :
    ∃ res tr2, encodeWriterLoop err tb p st n tr = some (res, tr ++ tr2) ∧
      (∀ i, i < tr2.length → err (n + i) = none) ∧
      (∀ e, res = Except.error e → err (n + tr2.length) = some e) ∧
      (res = Except.ok () →
        tr2.flatten = sliceBytes tb st p ++ escapeList (tb.drop p)) := by
  rcases hv.destruct with hnil | ⟨c, rest, hc, hrest, hd0⟩
  · have hlen : p = tb.length := by
      have := congrArg List.length hnil
      simp [List.length_drop] at this
      omega
    rcases hen : err n with _ | er
    · refine ⟨.ok (), [sliceBytes tb st p], ?_, ?_, ?_, ?_⟩
      · rw [encodeWriterLoop, if_pos hlen, hen]
      · intro i hi
        simp at hi
        subst hi
        simpa using hen
      · intro e he
        cases he
      · intro _
        rw [hnil, escapeList_nil]
        simp
    · refine ⟨.error er, [], ?_, ?_, ?_, ?_⟩
      · rw [encodeWriterLoop, if_pos hlen, hen, List.append_nil]
      · intro i hi
        simp at hi
      · intro e he
        cases he
        simpa using hen
      · intro h
        cases h
  · obtain ⟨b, cs, rfl, hw, hascii⟩ := hc.shape
    have hd2 : tb.drop p = (b :: cs) ++ rest := hd0
    have hplt : p < tb.length := by
      have := congrArg List.length hd2
      simp [List.length_drop] at this
      omega
    have hgetp : tb[p] = b := by
      have h3 : tb[p]? = some b := by
        have h4 := List.getElem?_drop tb p 0
        rw [Nat.add_zero] at h4
        rw [← h4, hd2]
        simp
      rw [List.getElem?_eq_getElem hplt] at h3
      exact Option.some.inj h3
    have hdropw : tb.drop (p + (b :: cs).length) = rest := by
      rw [← List.drop_drop, hd2, List.drop_left]
    have htakew : (tb.drop p).take (b :: cs).length = b :: cs := by
      rw [hd2, List.take_left]
    cases cs with
    | nil =>
      have hw1 : get_width_assume_valid b = 1 := by simpa using hw
      simp only [List.length_cons, List.length_nil] at hdropw
      rw [encodeWriterLoop]
      rw [if_neg (by omega)]
      rw [dif_pos hplt]
      simp only [hgetp, hw1]
      by_cases ha : is_alphanumeric b
      · rw [if_neg (by simp [ha])]
        obtain ⟨res, tr2, hloop, hok, herr, hfin⟩ :=
          encodeWriterLoop_valid err tb (p + 1) st n tr (by omega) (by omega)
            (by rw [hdropw]; exact hrest)
        have hesc : escapeList (tb.drop p) = b :: escapeList rest := by
          rw [hd2, escapeList_chunk hc]
          simp [escapeChar, ha]
        refine ⟨res, tr2, hloop, hok, herr, ?_⟩
        intro hres
        rw [hfin hres, hdropw, hesc, sliceBytes_chunk tb st p 1 hst,
          show (tb.drop p).take 1 = [b] from by rw [hd2]; simp]
        simp [List.append_assoc]
      · rw [if_pos (by simp [ha])]
        rcases hen : err n with _ | er
        · rcases hen1 : err (n + 1) with _ | er1
          · obtain ⟨res, tr2, hloop, hok, herr, hfin⟩ :=
              encodeWriterLoop_valid err tb (p + 1) (p + 1) (n + 2)
                (tr ++ [sliceBytes tb st p, write_html_entity b])
                (by omega) (by omega) (by rw [hdropw]; exact hrest)
            refine ⟨res, [sliceBytes tb st p, write_html_entity b] ++ tr2, ?_, ?_, ?_, ?_⟩
            · exact hloop.trans (by rw [List.append_assoc])
            · intro i hi
              match i with
              | 0 => simpa using hen
              | 1 => simpa using hen1
              | (k + 2) =>
                have hk : k < tr2.length := by
                  simp at hi
                  omega
                have := hok k hk
                rwa [show n + (k + 2) = n + 2 + k by omega]
            · intro e he
              have := herr e he
              simp only [List.length_append, List.length_cons, List.length_nil]
              rwa [show n + (2 + tr2.length) = n + 2 + tr2.length by omega]
            · intro hres
              have hesc : escapeList (tb.drop p) =
                  write_html_entity b ++ escapeList rest := by
                rw [hd2, escapeList_chunk hc]
                simp [escapeChar, ha]
              rw [List.flatten_append, hfin hres, sliceBytes_self, hdropw, hesc]
              simp [List.flatten_cons]
          · refine ⟨.error er1, [sliceBytes tb st p], ?_, ?_, ?_, ?_⟩
            · rfl
            · intro i hi
              simp at hi
              subst hi
              simpa using hen
            · intro e he
              cases he
              simpa using hen1
            · intro h
              cases h
        · refine ⟨.error er, [], ?_, ?_, ?_, ?_⟩
          · rw [List.append_nil]
          · intro i hi
            simp at hi
          · intro e he
            cases he
            simpa using hen
          · intro h
            cases h
    | cons c2 ct =>
      have hw2 : get_width_assume_valid b = (b :: c2 :: ct).length := hw
      have hple : p + (b :: c2 :: ct).length ≤ tb.length := by
        have h5 := congrArg List.length hd2
        simp [List.length_drop] at h5
        simp only [List.length_cons]
        omega
      rw [encodeWriterLoop, if_neg (by omega), dif_pos hplt]
      simp only [hgetp, hw2]
      rw [if_neg (by simp)]
      obtain ⟨res, tr2, hloop, hok, herr, hfin⟩ :=
        encodeWriterLoop_valid err tb (p + (b :: c2 :: ct).length) st n tr
          (by simp only [List.length_cons]; omega) hple
          (by rw [hdropw]; exact hrest)
      have hesc : escapeList (tb.drop p) = (b :: c2 :: ct) ++ escapeList rest := by
        rw [hd2, escapeList_chunk hc, escapeChar_of_length_ne_one (by simp)]
      refine ⟨res, tr2, hloop, hok, herr, ?_⟩
      intro hres
      rw [hfin hres, hdropw, hesc, sliceBytes_chunk tb st p (b :: c2 :: ct).length hst,
        htakew]
      simp [List.append_assoc]
termination_by tb.length - p
decreasing_by
  · omega
  · omega
  · simp only [List.length_cons]
    omega

/-! ### Properties of the escaped output -/

theorem ValidUtf8.append {a b : List Nat} (ha : ValidUtf8 a) (hb : ValidUtf8 b) :
    ValidUtf8 (a ++ b) := by
  induction ha with
  | nil => simpa using hb
  | cons c rest hc hrest ih =>
      rw [List.append_assoc]
      exact ValidUtf8.cons c (rest ++ b) hc ih

theorem ValidUtf8.of_ascii {l : List Nat} (h : ∀ x ∈ l, x < 0x80) :
    ValidUtf8 l := by
  induction l with
  | nil => exact .nil
  | cons b t ih =>
      have hbt : b :: t = [b] ++ t := rfl
      rw [hbt]
      exact .cons [b] t (.ascii b (h b (by simp)))
        (ih fun x hx => h x (by simp [hx]))

theorem hexDigitUpper_lt {n : Nat} (h : n < 16) : hexDigitUpper n < 0x80 := by
  unfold hexDigitUpper
  split_ifs <;> omega

theorem write_html_entity_ascii {e : Nat} (he : e < 0xC0) :
    ∀ x ∈ write_html_entity e, x < 0x80 := by
  intro x hx
  have h1 : hexDigitUpper (e / 16) < 0x80 := hexDigitUpper_lt (by omega)
  have h2 : hexDigitUpper (e % 16) < 0x80 := hexDigitUpper_lt (by omega)
  unfold write_html_entity at hx
  split_ifs at hx <;> simp at hx <;> omega

theorem escapeChar_valid {c : List Nat} (hc : ValidChar c) :
    ValidUtf8 (escapeChar c) := by
  obtain ⟨b, cs, rfl, hw, hascii⟩ := hc.shape
  cases cs with
  | nil =>
      have hb : b < 0x80 := hascii (by simp)
      by_cases ha : is_alphanumeric b
      · rw [show escapeChar [b] = [b] by simp [escapeChar, ha]]
        exact ValidUtf8.of_ascii (by intro x hx; simp at hx; omega)
      · rw [show escapeChar [b] = write_html_entity b by simp [escapeChar, ha]]
        exact ValidUtf8.of_ascii (write_html_entity_ascii (by omega))
  | cons c2 ct =>
      rw [escapeChar_of_length_ne_one (by simp)]
      have := ValidUtf8.cons (b :: c2 :: ct) [] hc .nil
      simpa using this

/-- The escaped form of well-formed input is well-formed: escaping only
replaces single-byte characters and copies multi-byte sequences. -/
theorem escapeList_valid {l : List Nat} (h : ValidUtf8 l) :
    ValidUtf8 (escapeList l) := by
  induction h with
  | nil => rw [escapeList_nil]; exact .nil
  | cons c rest hc hrest ih =>
      rw [escapeList_chunk hc]
      exact (escapeChar_valid hc).append ih

/-- Escaping distributes over concatenation at character boundaries. -/
theorem escapeList_append {s : List Nat} (t : List Nat) (hs : ValidUtf8 s) :
    escapeList (s ++ t) = escapeList s ++ escapeList t := by
  induction hs with
  | nil => simp [escapeList_nil]
  | cons c rest hc hrest ih =>
      rw [List.append_assoc, escapeList_chunk hc, escapeList_chunk hc, ih]
      simp [List.append_assoc]

theorem escapeChar_length {c : List Nat} (hc : ValidChar c) :
    c.length ≤ (escapeChar c).length := by
  obtain ⟨b, cs, rfl, hw, hascii⟩ := hc.shape
  cases cs with
  | nil =>
      simp only [escapeChar]
      split_ifs with ha
      · simp
      · unfold write_html_entity
        split_ifs <;> simp
  | cons c2 ct =>
      rw [escapeChar_of_length_ne_one (by simp)]

/-- Escaped output is never shorter than the input. -/
theorem escapeList_length {l : List Nat} (h : ValidUtf8 l) :
    l.length ≤ (escapeList l).length := by
  induction h with
  | nil => simp [escapeList_nil]
  | cons c rest hc hrest ih =>
      rw [escapeList_chunk hc]
      simp only [List.length_append]
      have := escapeChar_length hc
      omega

/-! ### The reference decoder inverts escaping -/

theorem hexVal_hexDigitUpper {n : Nat} (h : n < 16) :
    hexVal (hexDigitUpper n) = n := by
  unfold hexVal hexDigitUpper
  split_ifs <;> omega

theorem unescape_pass {b : Nat} (l : List Nat) (h : b ≠ 0x26) :
    unescape (b :: l) = b :: unescape l := by
  rw [unescape, if_neg h]

theorem unescape_pass_list {c : List Nat} (l : List Nat)
    (h : ∀ x ∈ c, x ≠ 0x26) :
    unescape (c ++ l) = c ++ unescape l := by
  induction c with
  | nil => simp
  | cons b t ih =>
      rw [List.cons_append, unescape_pass _ (h b (by simp)),
        ih (fun x hx => h x (by simp [hx]))]
      simp

theorem unescape_write_html_entity {e : Nat} (l : List Nat) (he : e < 0x100) :
    unescape (write_html_entity e ++ l) = e :: unescape l := by
  unfold write_html_entity
  split_ifs with h1 h2 h3 h4
  · subst h1
    simp only [List.cons_append, List.nil_append]
    rw [unescape]
    simp [parseEntityTail]
  · subst h2
    simp only [List.cons_append, List.nil_append]
    rw [unescape]
    simp [parseEntityTail]
  · subst h3
    simp only [List.cons_append, List.nil_append]
    rw [unescape]
    simp [parseEntityTail]
  · subst h4
    simp only [List.cons_append, List.nil_append]
    rw [unescape]
    simp [parseEntityTail]
  · simp only [List.cons_append, List.nil_append]
    rw [unescape]
    simp only [if_pos rfl, parseEntityTail]
    rw [hexVal_hexDigitUpper (show e / 16 < 16 by omega),
      hexVal_hexDigitUpper (show e % 16 < 16 by omega)]
    have hdm : e / 16 * 16 + e % 16 = e := by omega
    rw [hdm, if_pos trivial]

/-- Decoding the escaped form of well-formed input restores the input. -/
theorem unescape_escapeList {l : List Nat} (h : ValidUtf8 l) :
    unescape (escapeList l) = l := by
  induction h with
  | nil =>
      rw [escapeList_nil]
      simp [unescape]
  | cons c rest hc hrest ih =>
      rw [escapeList_chunk hc]
      obtain ⟨b, cs, rfl, hw, hascii⟩ := hc.shape
      cases cs with
      | nil =>
          have hb : b < 0x80 := hascii (by simp)
          by_cases ha : is_alphanumeric b
          · have hbne : b ≠ 0x26 := by
              simp [is_alphanumeric] at ha
              omega
            rw [show escapeChar [b] = [b] by simp [escapeChar, ha],
              List.singleton_append, unescape_pass _ hbne, ih]
            rfl
          · rw [show escapeChar [b] = write_html_entity b by simp [escapeChar, ha],
              unescape_write_html_entity _ (by omega), ih]
            rfl
      | cons c2 ct =>
          rw [escapeChar_of_length_ne_one (by simp)]
          have hhigh := hc.multibyte_high (by simp)
          rw [unescape_pass_list _ (fun x hx => by have := hhigh x hx; omega), ih]

/-! ### Variant-level wrappers -/

theorem encode_to_vec_valid (tb out : List Nat) (hv : ValidUtf8 tb) :
    encode_unquoted_attribute_to_vec tb out =
      some (out ++ escapeList tb, escapeList tb) := by
  have hloop := encodeVecLoop_valid tb 0 0 out (le_refl 0) (Nat.zero_le _)
    (by rw [List.drop_zero]; exact hv)
  simp only [sliceBytes_self, List.append_nil, List.drop_zero] at hloop
  rw [encode_unquoted_attribute_to_vec, hloop]
  simp [List.drop_left]

theorem encode_to_writer_ok (err : Nat → Option Nat) (tb : List Nat)
    (hv : ValidUtf8 tb) (hnone : ∀ i, err i = none) :
    ∃ tr, encode_unquoted_attribute_to_writer err tb = some (.ok (), tr) ∧
      tr.flatten = escapeList tb := by
  obtain ⟨res, tr2, hloop, hok, herr, hfin⟩ := encodeWriterLoop_valid err tb 0 0 0 []
    (le_refl 0) (Nat.zero_le _) (by rw [List.drop_zero]; exact hv)
  simp only [List.nil_append] at hloop
  cases res with
  | error e =>
      have := herr e rfl
      rw [hnone (0 + tr2.length)] at this
      cases this
  | ok u =>
      cases u
      refine ⟨tr2, by rwa [encode_unquoted_attribute_to_writer], ?_⟩
      have := hfin rfl
      rwa [sliceBytes_self, List.nil_append, List.drop_zero] at this

/-- All four entry points produce the same escaped byte sequence on
well-formed input. -/
theorem escape_variants (tb : List Nat) (hv : ValidUtf8 tb) :
    (∃ c, encode_unquoted_attribute tb = some c ∧ c.data = escapeList tb) ∧
    encode_unquoted_attribute_to_vec tb [] = some (escapeList tb, escapeList tb) ∧
    encode_unquoted_attribute_to_string tb [] = some (escapeList tb, escapeList tb) ∧
    (∀ err : Nat → Option Nat, (∀ i, err i = none) →
      ∃ tr, encode_unquoted_attribute_to_writer err tb = some (.ok (), tr) ∧
        tr.flatten = escapeList tb) := by
  refine ⟨encode_unquoted_attribute_data tb hv, ?_, ?_, fun err h => encode_to_writer_ok err tb hv h⟩
  · have := encode_to_vec_valid tb [] hv
    rwa [List.nil_append] at this
  · rw [encode_unquoted_attribute_to_string]
    have := encode_to_vec_valid tb [] hv
    rwa [List.nil_append] at this

theorem to_vec_frame (text out buf sl : List Nat)
    (h : encode_unquoted_attribute_to_vec text out = some (buf, sl)) :
    buf = out ++ sl := by
  rw [encode_unquoted_attribute_to_vec, encodeVecLoop_frame] at h
  cases hl : encodeVecLoop text 0 0 [] with
  | none => rw [hl] at h; cases h
  | some app =>
      rw [hl] at h
      simp only [Option.map_some', Option.some.injEq, Prod.mk.injEq] at h
      obtain ⟨hbuf, hsl⟩ := h
      rw [← hbuf, ← hsl, List.drop_left]

/-! ### The claims -/

/-- C1: for every byte `b < 128` that is not an ASCII letter or digit,
`encode_unquoted_attribute` on the single-character input `[b]` yields
exactly the Entity Writer's output for `b` (as an owned value), and that
output matches the claim's table: the named references `&amp;`, `&lt;`,
`&gt;`, `&quot;` for `&`, `<`, `>`, `"`, and otherwise `&#x` followed by
the uppercase hexadecimal value of `b` (minimum two digits) and `;`
(space `0x20` gives `&#x20;`, `0x27` gives `&#x27;`). -/
theorem claim1_single_byte_exhaustive (b : Nat) (h1 : b < 128)
    (h2 : is_alphanumeric b = false) :
    encode_unquoted_attribute ([b]) = some (.owned (write_html_entity b)) ∧
    write_html_entity b = entitySpec b := by
  constructor
  · have hdry : encodeDryLoop [b] 0 = some (some (0, b)) := by
      rw [encodeDryLoop]
      simp [width_of_ascii (show b < 0xC0 by omega), h2]
    have hvec : encodeVecLoop ([] : List Nat) 0 0 (write_html_entity b) =
        some (write_html_entity b) := by
      rw [encodeVecLoop]
      simp [sliceBytes]
    rw [encode_unquoted_attribute, hdry]
    simp [hvec]
  · revert h2
    revert h1
    revert b
    decide

/-- C2: all variants compute the same escaped byte sequence on the same
well-formed input: the bytes of the value returned by
`encode_unquoted_attribute` equal the bytes appended by the `to_vec` and
`to_string` variants to an initially empty buffer, which equal the bytes
written by the `to_writer` variant to a sink that never fails. -/
theorem claim2_variants_agree (tb : List Nat) (hv : ValidUtf8 tb) :
    ∃ out, (∃ c, encode_unquoted_attribute tb = some c ∧ c.data = out) ∧
      encode_unquoted_attribute_to_vec tb [] = some (out, out) ∧
      encode_unquoted_attribute_to_string tb [] = some (out, out) ∧
      (∀ err : Nat → Option Nat, (∀ i, err i = none) →
        ∃ tr, encode_unquoted_attribute_to_writer err tb = some (.ok (), tr) ∧
          tr.flatten = out) := by
  obtain ⟨h1, h2, h3, h4⟩ := escape_variants tb hv
  exact ⟨escapeList tb, h1, h2, h3, h4⟩

/-- C3: for every well-formed input, applying the reference HTML-entity
decoder `unescape` to the output of `encode_unquoted_attribute`
reproduces the original input exactly. -/
theorem claim3_roundtrip (tb : List Nat) (hv : ValidUtf8 tb) :
    ∃ c, encode_unquoted_attribute tb = some c ∧ unescape c.data = tb := by
  obtain ⟨c, henc, hdata⟩ := encode_unquoted_attribute_data tb hv
  exact ⟨c, henc, by rw [hdata]; exact unescape_escapeList hv⟩

/-- C4: for every well-formed input consisting only of alphanumeric
ASCII characters and multi-byte characters (every byte `< 128` in it is
alphanumeric; this includes the empty input), `encode_unquoted_attribute`
returns the original input in borrowed (zero-allocation) form. -/
theorem claim4_no_escape_fast_path (tb : List Nat) (hv : ValidUtf8 tb)
    (h : ∀ i (hi : i < tb.length), tb[i] < 128 → is_alphanumeric tb[i] = true) :
    encode_unquoted_attribute tb = some (.borrowed tb) := by
  have hv0 : ValidUtf8 (tb.drop 0) := by rw [List.drop_zero]; exact hv
  rcases encodeDryLoop_valid tb 0 (Nat.zero_le _) hv0 with
    ⟨hdry, _⟩ | ⟨q, e, hdry, _, hql, hqe, he, hena, _, _⟩
  · rw [encode_unquoted_attribute, hdry]
  · exfalso
    rw [List.getElem?_eq_getElem hql] at hqe
    have hqe2 : tb[q] = e := Option.some.inj hqe
    have := h q hql (by rw [hqe2]; omega)
    rw [hqe2, hena] at this
    cases this

/-- C5: every multi-byte character in a well-formed input is copied to
the output byte-for-byte unchanged by all variants: escaping a text
`pre ++ c ++ post` with `c` a multi-byte character yields
`escaped pre ++ c ++ escaped post` — no escaping decision is ever taken
inside the multi-byte sequence. -/
theorem claim5_multibyte_passthrough (pre c post : List Nat)
    (hpre : ValidUtf8 pre) (hc : ValidChar c) (hlen : 2 ≤ c.length)
    (hpost : ValidUtf8 post) :
    encode_unquoted_attribute_to_vec (pre ++ c ++ post) [] =
      some (escapeList pre ++ c ++ escapeList post,
        escapeList pre ++ c ++ escapeList post) ∧
    (∃ cw, encode_unquoted_attribute (pre ++ c ++ post) = some cw ∧
      cw.data = escapeList pre ++ c ++ escapeList post) ∧
    (∀ err : Nat → Option Nat, (∀ i, err i = none) →
      ∃ tr, encode_unquoted_attribute_to_writer err (pre ++ c ++ post) =
        some (.ok (), tr) ∧ tr.flatten = escapeList pre ++ c ++ escapeList post) := by
  have hcp : ValidUtf8 (c ++ post) := ValidUtf8.cons c post hc hpost
  have hv : ValidUtf8 (pre ++ c ++ post) := by
    rw [List.append_assoc]
    exact hpre.append hcp
  have hesc : escapeList (pre ++ c ++ post) =
      escapeList pre ++ c ++ escapeList post := by
    rw [List.append_assoc, escapeList_append _ hpre, escapeList_chunk hc,
      escapeChar_of_length_ne_one (by omega)]
    simp [List.append_assoc]
  obtain ⟨h1, h2, h3, h4⟩ := escape_variants _ hv
  rw [hesc] at h1 h2 h4
  exact ⟨h2, h1, h4⟩

/-- C6: if the sink's `N`-th write call fails during the streaming
variant, the function returns that same error and performs no further
writes after the failing one (the successful-write trace consists of
exactly the calls before the first failing index, and the returned error
is the sink's error at that index); if no write fails it returns
success. -/
theorem claim6_stream_error (err : Nat → Option Nat) (tb : List Nat)
    (hv : ValidUtf8 tb) :
    ∃ res tr, encode_unquoted_attribute_to_writer err tb = some (res, tr) ∧
      (∀ i, i < tr.length → err i = none) ∧
      (∀ e, res = Except.error e → err tr.length = some e) ∧
      ((∀ i, err i = none) → res = Except.ok ()) := by
  obtain ⟨res, tr2, hloop, hok, herr, hfin⟩ := encodeWriterLoop_valid err tb 0 0 0 []
    (le_refl 0) (Nat.zero_le _) (by rw [List.drop_zero]; exact hv)
  simp only [List.nil_append] at hloop
  refine ⟨res, tr2, by rwa [encode_unquoted_attribute_to_writer],
    by simpa using hok, by simpa using herr, ?_⟩
  intro hnone
  cases res with
  | ok u => cases u; rfl
  | error e =>
      have := herr e rfl
      rw [hnone (0 + tr2.length)] at this
      cases this

/-- C7: the `to_vec` variant only appends to the caller's buffer: the
prior contents are preserved as a prefix, the returned slice is exactly
the newly appended portion, and two successive calls on the same buffer
accumulate both escaped results contiguously. -/
theorem claim7_append_only (text out buf sl : List Nat)
    (h : encode_unquoted_attribute_to_vec text out = some (buf, sl)) :
    buf.take out.length = out ∧ buf = out ++ sl ∧
    (∀ text2 buf2 sl2,
      encode_unquoted_attribute_to_vec text2 buf = some (buf2, sl2) →
      buf2 = (out ++ sl) ++ sl2) := by
  have h1 := to_vec_frame text out buf sl h
  refine ⟨by rw [h1, List.take_left], h1, ?_⟩
  intro t2 b2 s2 h2
  rw [to_vec_frame t2 buf b2 s2 h2, h1]

/-- C8: for every well-formed input the escaped byte sequence is itself
well-formed (escaping only replaces single-byte characters and copies
multi-byte sequences verbatim), so reconstructing an owned string from
the raw output bytes without re-validation is sound. -/
theorem claim8_wellformed_output (tb : List Nat) (hv : ValidUtf8 tb) :
    (∃ c, encode_unquoted_attribute tb = some c ∧ ValidUtf8 c.data) ∧
    (∀ out, ValidUtf8 out →
      encode_unquoted_attribute_to_string tb out =
        some (out ++ escapeList tb, escapeList tb) ∧
      ValidUtf8 (out ++ escapeList tb) ∧ ValidUtf8 (escapeList tb)) := by
  constructor
  · obtain ⟨c, henc, hdata⟩ := encode_unquoted_attribute_data tb hv
    exact ⟨c, henc, by rw [hdata]; exact escapeList_valid hv⟩
  · intro out hout
    refine ⟨?_, hout.append (escapeList_valid hv), escapeList_valid hv⟩
    rw [encode_unquoted_attribute_to_string]
    exact encode_to_vec_valid tb out hv

/-- C9: on well-formed input every variant's scan loop terminates and
returns a value — the cursor advances by the positive width of each
classified character, always lands on character boundaries and reaches
the length exactly, never indexing out of bounds (the `none` result,
which models the out-of-bounds access, is impossible); the only failure
mode is the streaming variant's sink error, carried inside the returned
value. -/
theorem claim9_total (tb : List Nat) (hv : ValidUtf8 tb) :
    (∃ r, encode_unquoted_attribute tb = some r) ∧
    (∀ out, ∃ r, encode_unquoted_attribute_to_vec tb out = some r) ∧
    (∀ err : Nat → Option Nat, ∃ r,
      encode_unquoted_attribute_to_writer err tb = some r) := by
  refine ⟨?_, ?_, ?_⟩
  · obtain ⟨c, henc, _⟩ := encode_unquoted_attribute_data tb hv
    exact ⟨c, henc⟩
  · intro out
    exact ⟨_, encode_to_vec_valid tb out hv⟩
  · intro err
    obtain ⟨res, tr2, hloop, _, _, _⟩ := encodeWriterLoop_valid err tb 0 0 0 []
      (le_refl 0) (Nat.zero_le _) (by rw [List.drop_zero]; exact hv)
    refine ⟨(res, tr2), ?_⟩
    rw [encode_unquoted_attribute_to_writer]
    simpa using hloop

/-- C10: escaping is a homomorphism over concatenation at character
boundaries: for well-formed `s` and `t`, the escaped bytes of `s ++ t`
are the escaped bytes of `s` followed by the escaped bytes of `t`, and
the escaped output is never shorter than the input. -/
theorem claim10_concat_hom (s t : List Nat) (hs : ValidUtf8 s)
    (ht : ValidUtf8 t) :
    encode_unquoted_attribute_to_vec (s ++ t) [] =
      some (escapeList s ++ escapeList t, escapeList s ++ escapeList t) ∧
    encode_unquoted_attribute_to_vec s [] = some (escapeList s, escapeList s) ∧
    encode_unquoted_attribute_to_vec t [] = some (escapeList t, escapeList t) ∧
    s.length ≤ (escapeList s).length := by
  have h1 := encode_to_vec_valid (s ++ t) [] (hs.append ht)
  have h2 := encode_to_vec_valid s [] hs
  have h3 := encode_to_vec_valid t [] ht
  rw [escapeList_append t hs] at h1
  simp only [List.nil_append] at h1 h2 h3
  exact ⟨h1, h2, h3, escapeList_length hs⟩

/-! ### Concrete witnesses -/

/-- C1 witness at the space byte `0x20`. -/
theorem claim1_witness :
    (0x20 < 128 ∧ is_alphanumeric 0x20 = false) ∧
    (encode_unquoted_attribute ([0x20]) = some (.owned (write_html_entity 0x20)) ∧
      write_html_entity 0x20 = entitySpec 0x20) :=
  ⟨⟨by decide, by decide⟩,
    claim1_single_byte_exhaustive 0x20 (by decide) (by decide)⟩

/-- C2 witness on the input `"a&b"`. -/
theorem claim2_witness :
    ValidUtf8 [0x61, 0x26, 0x62] ∧
    (∃ out, (∃ c, encode_unquoted_attribute ([0x61, 0x26, 0x62]) = some c ∧
        c.data = out) ∧
      encode_unquoted_attribute_to_vec [0x61, 0x26, 0x62] [] = some (out, out) ∧
      encode_unquoted_attribute_to_string [0x61, 0x26, 0x62] [] =
        some (out, out) ∧
      (∀ err : Nat → Option Nat, (∀ i, err i = none) →
        ∃ tr, encode_unquoted_attribute_to_writer err [0x61, 0x26, 0x62] =
          some (.ok (), tr) ∧ tr.flatten = out)) :=
  ⟨ValidUtf8.of_ascii (by decide),
    claim2_variants_agree [0x61, 0x26, 0x62] (ValidUtf8.of_ascii (by decide))⟩

/-- C3 witness on the input `"<<"`. -/
theorem claim3_witness :
    ValidUtf8 [0x3C, 0x3C] ∧
    (∃ c, encode_unquoted_attribute ([0x3C, 0x3C]) = some c ∧
      unescape c.data = [0x3C, 0x3C]) :=
  ⟨ValidUtf8.of_ascii (by decide),
    claim3_roundtrip [0x3C, 0x3C] (ValidUtf8.of_ascii (by decide))⟩

/-- C4 witness on the input `"aé"` (`é` = `0xC3 0xA9`). -/
theorem claim4_witness :
    (ValidUtf8 [0x61, 0xC3, 0xA9] ∧
      (∀ i (hi : i < ([0x61, 0xC3, 0xA9] : List Nat).length),
        ([0x61, 0xC3, 0xA9] : List Nat)[i] < 128 →
        is_alphanumeric (([0x61, 0xC3, 0xA9] : List Nat)[i]) = true)) ∧
    encode_unquoted_attribute ([0x61, 0xC3, 0xA9]) =
      some (.borrowed [0x61, 0xC3, 0xA9]) := by
  have hval : ValidUtf8 [0x61, 0xC3, 0xA9] :=
    ValidUtf8.cons [0x61] _ (ValidChar.ascii 0x61 (by omega))
      (ValidUtf8.cons [0xC3, 0xA9] [] (ValidChar.two 0xC3 0xA9 (by omega)
        (by omega) (by decide)) ValidUtf8.nil)
  exact ⟨⟨hval, by decide⟩,
    claim4_no_escape_fast_path [0x61, 0xC3, 0xA9] hval (by decide)⟩

/-- C5 witness: `"a" ++ "é" ++ "&"`. -/
theorem claim5_witness :
    (ValidUtf8 [0x61] ∧ ValidChar [0xC3, 0xA9] ∧
      2 ≤ ([0xC3, 0xA9] : List Nat).length ∧ ValidUtf8 [0x26]) ∧
    (encode_unquoted_attribute_to_vec ([0x61] ++ [0xC3, 0xA9] ++ [0x26]) [] =
      some (escapeList [0x61] ++ [0xC3, 0xA9] ++ escapeList [0x26],
        escapeList [0x61] ++ [0xC3, 0xA9] ++ escapeList [0x26]) ∧
    (∃ cw, encode_unquoted_attribute ([0x61] ++ [0xC3, 0xA9] ++ [0x26]) =
        some cw ∧
      cw.data = escapeList [0x61] ++ [0xC3, 0xA9] ++ escapeList [0x26]) ∧
    (∀ err : Nat → Option Nat, (∀ i, err i = none) →
      ∃ tr, encode_unquoted_attribute_to_writer err
          ([0x61] ++ [0xC3, 0xA9] ++ [0x26]) = some (.ok (), tr) ∧
        tr.flatten = escapeList [0x61] ++ [0xC3, 0xA9] ++ escapeList [0x26])) := by
  have hc : ValidChar [0xC3, 0xA9] :=
    ValidChar.two 0xC3 0xA9 (by omega) (by omega) (by decide)
  exact ⟨⟨ValidUtf8.of_ascii (by decide), hc, by decide,
      ValidUtf8.of_ascii (by decide)⟩,
    claim5_multibyte_passthrough [0x61] [0xC3, 0xA9] [0x26]
      (ValidUtf8.of_ascii (by decide)) hc (by decide)
      (ValidUtf8.of_ascii (by decide))⟩

/-- C6 witness: input `"&"` against a sink that fails on its very first
write call with error value `7`. -/
theorem claim6_witness :
    ValidUtf8 [0x26] ∧
    (∃ res tr, encode_unquoted_attribute_to_writer
        (fun i => if i = 0 then some 7 else none) [0x26] = some (res, tr) ∧
      (∀ i, i < tr.length → (fun i => if i = 0 then some 7 else none) i = none) ∧
      (∀ e, res = Except.error e →
        (fun i => if i = 0 then some 7 else none) tr.length = some e) ∧
      ((∀ i, (fun i => if i = 0 then some 7 else none) i = none) →
        res = Except.ok ())) :=
  ⟨ValidUtf8.of_ascii (by decide),
    claim6_stream_error (fun i => if i = 0 then some 7 else none) [0x26]
      (ValidUtf8.of_ascii (by decide))⟩

/-- C7 witness: appending the escape of `"a&"` to a buffer holding
`"A"`. -/
theorem claim7_witness :
    encode_unquoted_attribute_to_vec [0x61, 0x26] [0x41] =
      some ([0x41, 0x61, 0x26, 0x61, 0x6D, 0x70, 0x3B],
        [0x61, 0x26, 0x61, 0x6D, 0x70, 0x3B]) ∧
    ([0x41, 0x61, 0x26, 0x61, 0x6D, 0x70, 0x3B] : List Nat).take
        ([0x41] : List Nat).length = [0x41] ∧
    ([0x41, 0x61, 0x26, 0x61, 0x6D, 0x70, 0x3B] : List Nat) =
      [0x41] ++ [0x61, 0x26, 0x61, 0x6D, 0x70, 0x3B] ∧
    (∀ text2 buf2 sl2,
      encode_unquoted_attribute_to_vec text2
          [0x41, 0x61, 0x26, 0x61, 0x6D, 0x70, 0x3B] = some (buf2, sl2) →
      buf2 = ([0x41] ++ [0x61, 0x26, 0x61, 0x6D, 0x70, 0x3B]) ++ sl2) := by
  have h : encode_unquoted_attribute_to_vec [0x61, 0x26] [0x41] =
      some ([0x41, 0x61, 0x26, 0x61, 0x6D, 0x70, 0x3B],
        [0x61, 0x26, 0x61, 0x6D, 0x70, 0x3B]) := by
    simp [encode_unquoted_attribute_to_vec, encodeVecLoop, sliceBytes,
      get_width_assume_valid, is_alphanumeric, write_html_entity, hexDigitUpper]
  obtain ⟨w1, w2, w3⟩ := claim7_append_only [0x61, 0x26] [0x41]
    [0x41, 0x61, 0x26, 0x61, 0x6D, 0x70, 0x3B]
    [0x61, 0x26, 0x61, 0x6D, 0x70, 0x3B] h
  exact ⟨h, w1, w2, w3⟩

/-- C8 witness on the input `"\""`. -/
theorem claim8_witness :
    ValidUtf8 [0x22] ∧
    ((∃ c, encode_unquoted_attribute ([0x22]) = some c ∧ ValidUtf8 c.data) ∧
    (∀ out, ValidUtf8 out →
      encode_unquoted_attribute_to_string [0x22] out =
        some (out ++ escapeList [0x22], escapeList [0x22]) ∧
      ValidUtf8 (out ++ escapeList [0x22]) ∧ ValidUtf8 (escapeList [0x22]))) :=
  ⟨ValidUtf8.of_ascii (by decide),
    claim8_wellformed_output [0x22] (ValidUtf8.of_ascii (by decide))⟩

/-- C9 witness on the input `">"`. -/
theorem claim9_witness :
    ValidUtf8 [0x3E] ∧
    ((∃ r, encode_unquoted_attribute ([0x3E]) = some r) ∧
    (∀ out, ∃ r, encode_unquoted_attribute_to_vec [0x3E] out = some r) ∧
    (∀ err : Nat → Option Nat, ∃ r,
      encode_unquoted_attribute_to_writer err [0x3E] = some r)) :=
  ⟨ValidUtf8.of_ascii (by decide),
    claim9_total [0x3E] (ValidUtf8.of_ascii (by decide))⟩

/-- C10 witness at `s = "a"`, `t = "&"`. -/
theorem claim10_witness :
    (ValidUtf8 [0x61] ∧ ValidUtf8 [0x26]) ∧
    (encode_unquoted_attribute_to_vec ([0x61] ++ [0x26]) [] =
      some (escapeList [0x61] ++ escapeList [0x26],
        escapeList [0x61] ++ escapeList [0x26]) ∧
    encode_unquoted_attribute_to_vec [0x61] [] =
      some (escapeList [0x61], escapeList [0x61]) ∧
    encode_unquoted_attribute_to_vec [0x26] [] =
      some (escapeList [0x26], escapeList [0x26]) ∧
    ([0x61] : List Nat).length ≤ (escapeList [0x61]).length) :=
  ⟨⟨ValidUtf8.of_ascii (by decide), ValidUtf8.of_ascii (by decide)⟩,
    claim10_concat_hom [0x61] [0x26] (ValidUtf8.of_ascii (by decide))
      (ValidUtf8.of_ascii (by decide))⟩

end HtmlEscape
